import Mathlib

/-!
# Verification of the fsm-extractor symbolic path-signature engine

Shallow embedding of `src/analysis/signatures.rs` and the parts of
`src/fsm/` it depends on.  Rust strings are modelled as `List Char`
together with their UTF-8 byte positions; fallible operations (string
slicing at a non-character-boundary, which panics in Rust) return
`Except Unit`, where `Except.error ()` models a panic.  Machine floats
in `PathSignature::evaluate_condition` are abstracted by a numeric
parser parameter `parseNum : String → Option Rat`; every theorem below
that involves the matcher holds for every such parameter.
-/

namespace FsmExtractor

/-! ## Data model (`src/fsm/state.rs`, `transition.rs`, `function_block.rs`,
and the data structures of `src/analysis/signatures.rs`) -/

/-- `Condition` from `signatures.rs`: one atomic condition `variable op value`. -/
structure Condition where
  «variable» : String
  operator : String
  value : String
deriving DecidableEq, Repr

/-- `Condition::to_string`: `"{variable} {operator} {value}"`. -/
def Condition.toStr (c : Condition) : String :=
  c.«variable» ++ " " ++ c.operator ++ " " ++ c.value

/-- `BooleanExpr` from `signatures.rs`. -/
inductive BooleanExpr where
  | atomic (c : Condition)
  | and (l r : BooleanExpr)
  | or (l r : BooleanExpr)
  | not (inner : BooleanExpr)
deriving DecidableEq, Repr

/-- `PathSignature` from `signatures.rs`. -/
structure PathSignature where
  conditions : List Condition
  path_id : Nat
deriving DecidableEq, Repr

/-- `StateSignature` from `signatures.rs`. -/
structure StateSignature where
  state_id : String
  path_signatures : List PathSignature
  paths_count : Nat
deriving DecidableEq, Repr

/-- `StateSignatureTable` from `signatures.rs`.  The `IndexMap` of
signatures is modelled as an insertion-ordered association list. -/
structure StateSignatureTable where
  function_block_name : String
  case_variable : String
  signatures : List (String × StateSignature)
deriving DecidableEq, Repr

/-- `State` from `src/fsm/state.rs`. -/
structure State where
  id : String
  name : Option String
  transitions_out : List String
  transitions_in : List String
deriving DecidableEq, Repr

/-- `Transition` from `src/fsm/transition.rs`. -/
structure Transition where
  id : String
  from_state : String
  to_state : String
  condition : String
  raw_expression : String
deriving DecidableEq, Repr

/-- `FunctionBlock` from `src/fsm/function_block.rs`; the `IndexMap`
of states is modelled as an insertion-ordered association list keyed by
state id. -/
structure FunctionBlock where
  name : String
  case_variable : String
  states : List (String × State)
  transitions : List Transition
deriving DecidableEq, Repr

/-- `IndexMap::insert`: replace in place if the key exists, else append. -/
def indexInsert {α : Type} (m : List (String × α)) (k : String) (v : α) :
    List (String × α) :=
  if m.any (fun p => p.1 = k) then
    m.map (fun p => if p.1 = k then (k, v) else p)
  else
    m ++ [(k, v)]

/-- `IndexMap::get`. -/
def indexLookup {α : Type} (m : List (String × α)) (k : String) : Option α :=
  (m.find? (fun p => p.1 = k)).map (fun p => p.2)

/-- `FunctionBlock::add_state`. -/
def FunctionBlock.addState (fb : FunctionBlock) (s : State) : FunctionBlock :=
  { fb with states := indexInsert fb.states s.id s }

/-- `FunctionBlock::add_transition`: push the transition id onto the
endpoint states' `transitions_out` / `transitions_in` lists when those
states are present, then append the transition. -/
def FunctionBlock.addTransition (fb : FunctionBlock) (t : Transition) : FunctionBlock :=
  let states1 := fb.states.map (fun p =>
    if p.1 = t.from_state then
      (p.1, { p.2 with transitions_out := p.2.transitions_out ++ [t.id] })
    else p)
  let states2 := states1.map (fun p =>
    if p.1 = t.to_state then
      (p.1, { p.2 with transitions_in := p.2.transitions_in ++ [t.id] })
    else p)
  { fb with states := states2, transitions := fb.transitions ++ [t] }

/-- `Transition::new`: the id is `"{from}_to_{to}"`. -/
def Transition.make (fromS toS cond : String) : Transition :=
  { id := fromS ++ "_to_" ++ toS
    from_state := fromS
    to_state := toS
    condition := cond
    raw_expression := cond }

/-! ## UTF-8 byte model

The Rust tokenizer mixes byte positions (`self.input.len()`, string
slicing) with character positions (`self.input.chars().nth(position)`).
Both readings of the single `position` field are modelled faithfully.
A byte slice `&s[a..b]` panics in Rust when `a > b` or when `a` or `b`
is not a character boundary; `byteSlice` returns `none` exactly then. -/

/-- Number of UTF-8 bytes of a character. -/
def utf8Size (c : Char) : Nat :=
  if c.val < 0x80 then 1
  else if c.val < 0x800 then 2
  else if c.val < 0x10000 then 3
  else 4

/-- Byte length of a string, as `str::len`. -/
def byteLen (cs : List Char) : Nat := (cs.map utf8Size).sum

/-- Drop the first `n` bytes; `none` if `n` is not a character boundary. -/
def byteDrop : List Char → Nat → Option (List Char)
  | cs, 0 => some cs
  | [], _ + 1 => none
  | c :: rest, n + 1 =>
    if utf8Size c ≤ n + 1 then byteDrop rest (n + 1 - utf8Size c) else none

/-- Take the first `n` bytes; `none` if `n` is not a character boundary. -/
def byteTake : List Char → Nat → Option (List Char)
  | _, 0 => some []
  | [], _ + 1 => none
  | c :: rest, n + 1 =>
    if utf8Size c ≤ n + 1 then
      (byteTake rest (n + 1 - utf8Size c)).map (fun l => c :: l)
    else none

/-- Rust `&s[a..b]`: `none` models the byte-boundary panic. -/
def byteSlice (cs : List Char) (a b : Nat) : Option (List Char) :=
  if b < a then none
  else match byteDrop cs a with
    | none => none
    | some rest => byteTake rest (b - a)

/-- `self.input.chars().nth(pos).unwrap_or('\0')` — a character-index read. -/
def charAt (cs : List Char) (pos : Nat) : Char :=
  (cs.get? pos).getD (Char.ofNat 0)

/-- Rust `str::trim`.  (`char::is_whitespace` is Unicode-aware; the ASCII
whitespace recognised by `Char.isWhitespace` covers every guard exercised
by the claims.) -/
def trimChars (cs : List Char) : List Char :=
  ((cs.dropWhile Char.isWhitespace).reverse.dropWhile Char.isWhitespace).reverse

/-- Prefix test on character lists. -/
def startsWithList : List Char → List Char → Bool
  | _, [] => true
  | [], _ :: _ => false
  | c :: cs, p :: ps => c = p && startsWithList cs ps

/-! ## Tokenizer (`Tokenizer` in `signatures.rs`)

`Tokenizer::check_keyword` slices the input at byte positions
`position .. position + keyword.len()`; with non-ASCII input this can
fall inside a multi-byte character, which panics in Rust and is
modelled as `Except.error ()` here.  `char::is_alphanumeric` is
Unicode-aware in Rust; it is modelled on the ASCII range, which covers
every keyword-boundary character the claims exercise. -/

/-- `Token` from `signatures.rs`. -/
inductive Token where
  | condition (s : String)
  | and
  | or
  | not
  | lparen
  | rparen
deriving DecidableEq, Repr

/-- `Tokenizer::skip_whitespace`.  The position strictly increases each
iteration and the loop stops at the byte length, so the fuel
`byteLen cs + 1` passed by the callers never runs out (on exhaustion
the current position is returned). -/
def skipWs (cs : List Char) : Nat → Nat → Nat
  | 0, pos => pos
  | fuel + 1, pos =>
    if pos < byteLen cs ∧ (charAt cs pos).isWhitespace then
      skipWs cs fuel (pos + 1)
    else pos

/-- `Tokenizer::check_keyword`: compare the byte slice at `pos` with the
keyword (possible panic), then require the following character read at
index `pos + kw.len()` not to be alphanumeric or `_`. -/
def checkKeyword (cs : List Char) (pos : Nat) (kw : List Char) : Except Unit Bool :=
  if pos + kw.length > byteLen cs then .ok false
  else match byteSlice cs pos (pos + kw.length) with
    | none => .error ()
    | some sub =>
      if sub ≠ kw then .ok false
      else
        let nextPos := pos + kw.length
        if nextPos < byteLen cs then
          let nextChar := (cs.get? nextPos).getD (Char.ofNat 0)
          if nextChar.isAlphanum || nextChar = '_' then .ok false else .ok true
        else .ok true

/-- Tail of `Tokenizer::parse_atomic_condition`: after the scan loop,
slice `input[start..pos]` (possible panic) and trim; emit the condition
text when non-empty. -/
def finishAtomic (cs : List Char) (startPos pos : Nat) :
    Except Unit (Nat × Option (List Char)) :=
  if startPos < pos then
    match byteSlice cs startPos pos with
    | none => .error ()
    | some sub =>
      let cond := trimChars sub
      if cond.isEmpty then .ok (pos, none) else .ok (pos, some cond)
  else .ok (pos, none)

/-- Scan loop of `Tokenizer::parse_atomic_condition`: consume until a
complete-word `AND`/`OR` at parenthesis depth 0 or an unmatched `)`.
The depth-0 keyword test is short-circuited exactly as in the source,
so `check_keyword` (and its possible panic) only runs at depth 0. -/
def parseAtomicCondLoop (cs : List Char) (startPos : Nat) :
    Nat → Nat → Nat → Except Unit (Nat × Option (List Char))
  | 0, _, _ => .error ()
  | fuel + 1, pos, depth =>
    if pos < byteLen cs then
      let ch := charAt cs pos
      if ch = '(' then parseAtomicCondLoop cs startPos fuel (pos + 1) (depth + 1)
      else if ch = ')' then
        if depth > 0 then parseAtomicCondLoop cs startPos fuel (pos + 1) (depth - 1)
        else finishAtomic cs startPos pos
      else if depth = 0 then
        match checkKeyword cs pos ['A', 'N', 'D'] with
        | .error e => .error e
        | .ok true => finishAtomic cs startPos pos
        | .ok false =>
          match checkKeyword cs pos ['O', 'R'] with
          | .error e => .error e
          | .ok true => finishAtomic cs startPos pos
          | .ok false => parseAtomicCondLoop cs startPos fuel (pos + 1) depth
      else parseAtomicCondLoop cs startPos fuel (pos + 1) depth
    else finishAtomic cs startPos pos

/-- Main loop of `Tokenizer::tokenize`.  The fuel only bounds the
recursion; the position strictly increases every iteration, so
`byteLen cs + 1` units never run out on the loop itself (fuel
exhaustion is also reported as `.error ()`). -/
def tokenizeLoop (cs : List Char) : Nat → Nat → List Token → Except Unit (List Token)
  | 0, _, _ => .error ()
  | fuel + 1, pos, acc =>
    if pos < byteLen cs then
      let pos := skipWs cs (byteLen cs + 1) pos
      if pos ≥ byteLen cs then .ok acc
      else
        match checkKeyword cs pos ['A', 'N', 'D'] with
        | .error e => .error e
        | .ok true => tokenizeLoop cs fuel (pos + 3) (acc ++ [Token.and])
        | .ok false =>
          match checkKeyword cs pos ['O', 'R'] with
          | .error e => .error e
          | .ok true => tokenizeLoop cs fuel (pos + 2) (acc ++ [Token.or])
          | .ok false =>
            match checkKeyword cs pos ['N', 'O', 'T'] with
            | .error e => .error e
            | .ok true => tokenizeLoop cs fuel (pos + 3) (acc ++ [Token.not])
            | .ok false =>
              if charAt cs pos = '(' then
                tokenizeLoop cs fuel (pos + 1) (acc ++ [Token.lparen])
              else if charAt cs pos = ')' then
                tokenizeLoop cs fuel (pos + 1) (acc ++ [Token.rparen])
              else
                match parseAtomicCondLoop cs pos (byteLen cs + 1) pos 0 with
                | .error e => .error e
                | .ok (pos2, some cond) =>
                  tokenizeLoop cs fuel pos2 (acc ++ [Token.condition (String.mk cond)])
                | .ok (pos2, none) => tokenizeLoop cs fuel (pos2 + 1) acc
    else .ok acc

/-- `Tokenizer::new(input).tokenize()`. -/
def tokenizeStr (s : String) : Except Unit (List Token) :=
  tokenizeLoop s.data (byteLen s.data + 1) 0 []

instance {ε α : Type} [DecidableEq ε] [DecidableEq α] : DecidableEq (Except ε α) :=
  fun a b =>
    match a, b with
    | .error e, .error f =>
      if h : e = f then isTrue (by rw [h])
      else isFalse (fun hc => h (Except.error.inj hc))
    | .ok x, .ok y =>
      if h : x = y then isTrue (by rw [h])
      else isFalse (fun hc => h (Except.ok.inj hc))
    | .error _, .ok _ => isFalse (fun hc => Except.noConfusion hc)
    | .ok _, .error _ => isFalse (fun hc => Except.noConfusion hc)

/-! ## Atomic-condition parser (`parse_atomic_condition_str`)

Rust's `str::find` returns a byte offset and the subsequent slices cut
at that offset; since the offset of a found substring is always a
character boundary, positions are modelled at character granularity
(`findSub` returns the character index of the first occurrence, and the
slices become `take`/`drop`). -/

/-- Character index of the first occurrence of `pat` in `cs` (`str::find`). -/
def findSub : List Char → List Char → Option Nat
  | cs, pat =>
    if startsWithList cs pat then some 0
    else match cs with
      | [] => none
      | _ :: rest => (findSub rest pat).map (fun n => n + 1)

/-- The operator list tried in order by `parse_atomic_condition_str`. -/
def operatorList : List (List Char) :=
  [['<', '='], ['>', '='], ['<', '>'], ['='], ['<'], ['>']]

/-- One step of the operator loop in `parse_atomic_condition_str`:
on the first operator that occurs, the text before it (trimmed) is the
variable and the text after it (trimmed, one outer parenthesis pair
stripped and re-trimmed when present) is the value. -/
def opScan (cs : List Char) : List (List Char) → Option Condition
  | [] => none
  | op :: rest =>
    match findSub cs op with
    | some pos =>
      let varText := trimChars (cs.take pos)
      let rawValue := trimChars (cs.drop (pos + op.length))
      let valueText :=
        if rawValue.head? = some '(' ∧ rawValue.getLast? = some ')' then
          trimChars (rawValue.drop 1).dropLast
        else rawValue
      some ⟨String.mk varText, String.mk op, String.mk valueText⟩
    | none => opScan cs rest

/-- `parse_atomic_condition_str`: trim, strip the first and last
characters when they are `(` and `)`, then run the operator scan. -/
def parseAtomicConditionStr (s : String) : Option Condition :=
  let cs1 := trimChars s.data
  let cs :=
    if cs1.head? = some '(' ∧ cs1.getLast? = some ')' then
      (cs1.drop 1).dropLast
    else cs1
  opScan cs operatorList

/-! ## Expression parser (`ExpressionParser`)

Recursive descent over the token list with an explicit position; each
parser returns the parsed expression together with the next position,
or `none` on failure.  Fuel bounds the recursion (each call consumes
one unit); the fuel passed by `parseTokens` is large enough for every
input the development evaluates, and fuel exhaustion yields `none`,
merging with the parser's ordinary failure as in the source's caller. -/

/-- The five mutually recursive procedures of `ExpressionParser`
(`parse_or`, its iteration, `parse_and`, its iteration, `parse_not`,
`parse_primary`), defunctionalised into one frame type so that the
whole parser is a single structural recursion on fuel (each
source-level call consumes one unit of fuel). -/
inductive ParserFrame where
  | orP
  | orLoopP (left : BooleanExpr)
  | andP
  | andLoopP (left : BooleanExpr)
  | notP
  | primaryP

/-- One recursive engine for all `ExpressionParser` procedures; the
frame says which source function is running.  `orLoopP` and `andLoopP`
are the `while` bodies of `parse_or` and `parse_and`
(left-associative); `notP` parses an optional leading `NOT` and then a
primary; `primaryP` parses a parenthesised expression (whose closing
parenthesis is consumed when present but whose absence is not an
error) or an atomic condition, and fails on any other token. -/
def runParser (ts : List Token) : Nat → ParserFrame → Nat → Option (BooleanExpr × Nat)
  | 0, _, _ => none
  | fuel + 1, frame, pos =>
    match frame with
    | .orP =>
      match runParser ts fuel .andP pos with
      | none => none
      | some (left, pos1) => runParser ts fuel (.orLoopP left) pos1
    | .orLoopP left =>
      if ts.get? pos = some Token.or then
        match runParser ts fuel .andP (pos + 1) with
        | none => none
        | some (right, pos1) => runParser ts fuel (.orLoopP (BooleanExpr.or left right)) pos1
      else some (left, pos)
    | .andP =>
      match runParser ts fuel .notP pos with
      | none => none
      | some (left, pos1) => runParser ts fuel (.andLoopP left) pos1
    | .andLoopP left =>
      if ts.get? pos = some Token.and then
        match runParser ts fuel .notP (pos + 1) with
        | none => none
        | some (right, pos1) => runParser ts fuel (.andLoopP (BooleanExpr.and left right)) pos1
      else some (left, pos)
    | .notP =>
      if ts.get? pos = some Token.not then
        match runParser ts fuel .primaryP (pos + 1) with
        | none => none
        | some (inner, pos1) => some (BooleanExpr.not inner, pos1)
      else runParser ts fuel .primaryP pos
    | .primaryP =>
      match ts.get? pos with
      | some Token.lparen =>
        match runParser ts fuel .orP (pos + 1) with
        | none => none
        | some (e, pos1) =>
          if ts.get? pos1 = some Token.rparen then some (e, pos1 + 1)
          else some (e, pos1)
      | some (Token.condition s) =>
        (parseAtomicConditionStr s).map (fun c => (BooleanExpr.atomic c, pos + 1))
      | _ => none

/-- `ExpressionParser::new(tokens).parse()`: run `parse_or` from
position 0.  The fuel `4 * ts.length + 8` covers every run evaluated in
this development (fuel exhaustion also yields `none`, merging with the
parser's ordinary failure exactly as the source's caller treats it);
trailing unconsumed tokens are ignored, as in the source. -/
def parseTokens (ts : List Token) : Option BooleanExpr :=
  (runParser ts (4 * ts.length + 8) .orP 0).map (fun p => p.1)

/-! ## DNF normalisation (`BooleanExpr::to_dnf`)

The source recurses on expressions it rebuilds in the `Not` cases
(`Not(And(l,r)) → Or(Not l, Not r).to_dnf()` and so on), which is not
structurally decreasing; the recursion is therefore split into a
positive mode and a negated mode.  The lemmas `dnfPos_not_and`,
`dnfPos_not_or`, `dnfPos_not_not` below restate the source's `Not`
equations verbatim and hold definitionally. -/

/-- `BooleanExpr::negate_condition`. -/
def negateCondition (c : Condition) : Condition :=
  let negatedOp :=
    match c.operator with
    | "=" => "<>"
    | "<>" => "="
    | "<" => ">="
    | "<=" => ">"
    | ">" => "<="
    | ">=" => "<"
    | _ => "="
  ⟨c.«variable», negatedOp, c.value⟩

/-- Distribution of AND over OR inside `to_dnf`: every concatenation of
a conjunction from the left with a conjunction from the right, in
left-major order. -/
def dnfProd (xs ys : List (List Condition)) : List (List Condition) :=
  xs.flatMap (fun l => ys.map (fun r => l ++ r))

/-- `to_dnf` in two modes, `true` for an expression in positive
position and `false` under one pending negation, driven by a single
structural recursion on the expression. -/
def dnfAux : Bool → BooleanExpr → List (List Condition)
  | true, .atomic c => [[c]]
  | true, .and l r => dnfProd (dnfAux true l) (dnfAux true r)
  | true, .or l r => dnfAux true l ++ dnfAux true r
  | true, .not e => dnfAux false e
  | false, .atomic c => [[negateCondition c]]
  | false, .and l r => dnfAux false l ++ dnfAux false r
  | false, .or l r => dnfProd (dnfAux false l) (dnfAux false r)
  | false, .not e => dnfAux true e

/-- `BooleanExpr::to_dnf`. -/
def dnfPos (e : BooleanExpr) : List (List Condition) := dnfAux true e

/-- Source equation `NOT(A AND B) = NOT(A) OR NOT(B)` before `to_dnf`. -/
theorem dnfPos_not_and (l r : BooleanExpr) :
    dnfPos (.not (.and l r)) = dnfPos (.or (.not l) (.not r)) := rfl

/-- Source equation `NOT(A OR B) = NOT(A) AND NOT(B)` before `to_dnf`. -/
theorem dnfPos_not_or (l r : BooleanExpr) :
    dnfPos (.not (.or l r)) = dnfPos (.and (.not l) (.not r)) := rfl

/-- Source equation `NOT(NOT(A)) = A` before `to_dnf`. -/
theorem dnfPos_not_not (e : BooleanExpr) :
    dnfPos (.not (.not e)) = dnfPos e := rfl

/-! ## Path finding (`PathFinder`)

A path is a sequence of `(state_id, arriving_transition_index)` pairs.
`paths_to_states` is a `HashMap<String, Vec<TransitionPath>>` in the
source; its per-key contents and their push order are deterministic, and
they are modelled as an association list (the hash map itself has no
meaningful entry order — the order-sensitive consumer is
`SignatureGenerator::generate`, which therefore takes the iteration
order as an explicit argument below).  The DFS recursion depth equals
the current path length, which is at most the number of transitions
plus one since every non-root step is a distinct transition target; the
fuel `states.length + transitions.length + 1` passed by `findAllPaths`
can therefore never run out, and an exhausted-fuel call returns its
accumulator unchanged. -/

/-- `TransitionPath` from `signatures.rs`. -/
abbrev TransitionPath : Type := List (String × Option Nat)

/-- The map from state id to the list of paths reaching it. -/
abbrev PathsMap : Type := List (String × List TransitionPath)

/-- `paths_to_states.entry(k).or_insert_with(Vec::new).push(p)`. -/
def pushPath (m : PathsMap) (k : String) (p : TransitionPath) : PathsMap :=
  if m.any (fun q => q.1 = k) then
    m.map (fun q => if q.1 = k then (q.1, q.2 ++ [p]) else q)
  else m ++ [(k, [p])]

/-- `PathFinder::dfs`: record the current path for the current state,
mark the state visited, then for every transition leaving the current
state whose target is unvisited, extend the path and recurse.  The
source removes the visited mark on return; since each child call is
given the same `visited` value here, that unwinding is implicit. -/
def dfs (fsm : FunctionBlock) : Nat → String → List String → TransitionPath →
    PathsMap → PathsMap
  | 0, _, _, _, acc => acc
  | fuel + 1, current, visited, path, acc =>
    let acc1 := pushPath acc current path
    let visited1 := current :: visited
    (fsm.transitions.enum).foldl
      (fun a p =>
        if p.2.from_state = current ∧ ¬ p.2.to_state ∈ visited1 then
          dfs fsm fuel p.2.to_state visited1 (path ++ [(p.2.to_state, some p.1)]) a
        else a)
      acc1

/-- `PathFinder::find_initial_states`: states with no incoming
transitions, in state insertion order. -/
def findInitialStates (fsm : FunctionBlock) : List String :=
  (fsm.states.map (fun p => p.2)).filterMap
    (fun s => if s.transitions_in.isEmpty then some s.id else none)

/-- `PathFinder::find_fallback_initial_state`. -/
def findFallbackInitialState (fsm : FunctionBlock) : List String :=
  if fsm.states.any (fun p => p.1 = "100") then ["100"]
  else if fsm.states.any (fun p => p.1 = "10") then ["10"]
  else match fsm.states.head? with
    | some p => [p.1]
    | none => []

/-- The starting-state selection inside `PathFinder::find_all_paths`. -/
def startingStates (fsm : FunctionBlock) : List String :=
  let initialStates := findInitialStates fsm
  if initialStates.isEmpty then findFallbackInitialState fsm else initialStates

/-- `PathFinder::find_all_paths`: one DFS walk per starting state, all
walks sharing the accumulated map. -/
def findAllPaths (fsm : FunctionBlock) : PathsMap :=
  (startingStates fsm).foldl
    (fun acc s =>
      dfs fsm (fsm.states.length + fsm.transitions.length + 1) s [] [(s, none)] acc) []

/-! ## Signature generation (`SignatureGenerator`)

`generate` iterates a `HashMap`, whose iteration order Rust does not
fix (it is randomised per map instance); the order is therefore an
explicit argument `stateOrder`.  Likewise
`merge_equivalent_signatures` returns `HashMap::into_values` in an
unspecified order, taken here as the argument `keyOrder`; callers of
`generate` supply one such order per state via `mergeOrders`. -/

/-- Conjunction dedup keyed on `(variable, operator, value)` with first
occurrences kept, as performed both by `parse_transition_condition` and
by `remove_redundancy_in_path`. -/
def dedupConditions (seen : List (String × String × String)) :
    List Condition → List Condition
  | [] => []
  | c :: rest =>
    let key := (c.«variable», c.operator, c.value)
    if key ∈ seen then dedupConditions seen rest
    else c :: dedupConditions (key :: seen) rest

/-- Lexicographic order on character lists by code point; for UTF-8
encoded text this coincides with Rust's byte-wise `str` ordering. -/
def listCharLt : List Char → List Char → Bool
  | [], [] => false
  | [], _ :: _ => true
  | _ :: _, [] => false
  | c :: cs, d :: ds =>
    decide (c.toNat < d.toNat) || (decide (c.toNat = d.toNat) && listCharLt cs ds)

/-- Strict string order (`str::cmp` giving `Less`). -/
def strLtB (a b : String) : Bool := listCharLt a.data b.data

/-- Non-strict string order (`str::cmp` giving `Less` or `Equal`). -/
def strLeB (a b : String) : Bool := !(strLtB b a)

/-- Comparison used by `remove_redundancy_in_path`'s `sort_by`:
lexicographic on `(variable, operator, value)`. -/
def condLe (a b : Condition) : Bool :=
  if a.«variable» ≠ b.«variable» then strLtB a.«variable» b.«variable»
  else if a.operator ≠ b.operator then strLtB a.operator b.operator
  else strLeB a.value b.value

/-- Stable insertion step: place `c` after every element that is `≤` it. -/
def insertCond (c : Condition) : List Condition → List Condition
  | [] => [c]
  | d :: rest => if condLe d c then d :: insertCond c rest else c :: d :: rest

/-- Stable sort by `condLe` (insertion sort).  Rust's `sort_by` is also
stable, and after the dedup no two elements compare equal, so the two
sorts produce the same list. -/
def sortConds (l : List Condition) : List Condition :=
  l.foldl (fun acc c => insertCond c acc) []

/-- `SignatureGenerator::remove_redundancy_in_path`: dedup, then sort. -/
def removeRedundancyInPath (conditions : List Condition) : List Condition :=
  sortConds (dedupConditions [] conditions)

/-- Rust `str::split(sep)` for a non-empty separator: non-overlapping
occurrences scanned left to right; the fuel `cs.length + 1` provided by
`splitOnAnd` never runs out since every step consumes a character. -/
def splitOnGo (sep : List Char) : Nat → List Char → List Char → List (List Char)
  | 0, _, acc => [acc.reverse]
  | fuel + 1, cs, acc =>
    if startsWithList cs sep then
      acc.reverse :: splitOnGo sep fuel (cs.drop sep.length) []
    else match cs with
      | [] => [acc.reverse]
      | c :: rest => splitOnGo sep fuel rest (c :: acc)

/-- `condition_str.split(" AND ")`. -/
def splitOnAnd (s : String) : List String :=
  (splitOnGo (" AND ".data) (s.data.length + 1) s.data []).map String.mk

/-- `SignatureGenerator::parse_simple_condition`: split on the literal
`" AND "`, parse each piece as an atomic, collect the successes into a
single conjunction.  (`parse_single_condition` just forwards to
`parse_atomic_condition_str`, which trims its argument itself.) -/
def parseSimpleCondition (s : String) : List (List Condition) :=
  [(splitOnAnd s).filterMap (fun part => parseAtomicConditionStr part)]

/-- `SignatureGenerator::parse_transition_condition`. -/
def parseTransitionCondition (s : String) : Except Unit (List (List Condition)) :=
  if s = "" ∨ s = "No Check" then .ok [[]]
  else match tokenizeStr s with
    | .error e => .error e
    | .ok tokens =>
      if tokens.isEmpty then .ok [[]]
      else match parseTokens tokens with
        | none => .ok (parseSimpleCondition s)
        | some expr => .ok ((dnfPos expr).map (dedupConditions []))

/-- `SignatureGenerator::cross_product_dnf`. -/
def crossProductDnf (dnfs : List (List (List Condition))) : List (List Condition) :=
  match dnfs with
  | [] => [[]]
  | first :: rest =>
    rest.foldl
      (fun result dnf => result.flatMap (fun l => dnf.map (fun r => l ++ r)))
      first

/-- Loop of `SignatureGenerator::extract_conditions_from_path`: the
DNFs of the conditions on the transitions taken along the path (steps
arriving with no transition contribute nothing, as do indices out of
range). -/
def collectDnfs (fsm : FunctionBlock) :
    List (String × Option Nat) → Except Unit (List (List (List Condition)))
  | [] => .ok []
  | (_, none) :: rest => collectDnfs fsm rest
  | (_, some idx) :: rest =>
    match fsm.transitions.get? idx with
    | none => collectDnfs fsm rest
    | some t =>
      match parseTransitionCondition t.condition with
      | .error e => .error e
      | .ok dnf =>
        match collectDnfs fsm rest with
        | .error e => .error e
        | .ok dnfs => .ok (dnf :: dnfs)

/-- `SignatureGenerator::extract_conditions_from_path`: the collected
per-transition DNFs, then their cross product. -/
def extractConditionsFromPath (fsm : FunctionBlock) (path : TransitionPath) :
    Except Unit (List (List Condition)) :=
  match collectDnfs fsm path with
  | .error e => .error e
  | .ok dnfs => .ok (crossProductDnf dnfs)

/-- `PathSignature::format_conditions`. -/
def formatPathConditions (ps : PathSignature) : String :=
  if ps.conditions.isEmpty then "[initial]"
  else String.intercalate " AND " (ps.conditions.map Condition.toStr)

/-- `SignatureGenerator::merge_equivalent_signatures`: group by the
formatted condition string keeping the first signature of each group,
then emit the groups in the (unspecified) `HashMap::into_values` order
`keyOrder`. -/
def mergeEquivalentSignatures (keyOrder : List String) (sigs : List PathSignature) :
    List PathSignature :=
  if sigs.length ≤ 1 then sigs
  else
    let grouped := sigs.foldl
      (fun m s =>
        if (indexLookup m (formatPathConditions s)).isSome then m
        else m ++ [(formatPathConditions s, s)])
      []
    keyOrder.filterMap (fun k => indexLookup grouped k)

/-- Inner loop of `SignatureGenerator::build_signature_for_state`:
for each path, each conjunction of its extracted condition sets becomes
one `PathSignature` with a monotonically increasing id. -/
def buildPathSignatures (fsm : FunctionBlock) (sigId : Nat) :
    List TransitionPath → Except Unit (List PathSignature)
  | [] => .ok []
  | path :: rest =>
    match extractConditionsFromPath fsm path with
    | .error e => .error e
    | .ok conditionSets =>
      let sigs := conditionSets.enum.map
        (fun p => PathSignature.mk (removeRedundancyInPath p.2) (sigId + p.1))
      match buildPathSignatures fsm (sigId + conditionSets.length) rest with
      | .error e => .error e
      | .ok more => .ok (sigs ++ more)

/-- `SignatureGenerator::build_signature_for_state`. -/
def buildSignatureForState (fsm : FunctionBlock) (keyOrder : List String)
    (stateId : String) (paths : List TransitionPath) : Except Unit StateSignature :=
  match buildPathSignatures fsm 0 paths with
  | .error e => .error e
  | .ok pathSigs =>
    .ok ⟨stateId, mergeEquivalentSignatures keyOrder pathSigs, paths.length⟩

/-- Loop of `SignatureGenerator::generate` over the paths map in the
iteration order `stateOrder`. -/
def generateGo (fsm : FunctionBlock) (mergeOrders : String → List String)
    (paths : PathsMap) :
    List String → List (String × StateSignature) →
    Except Unit (List (String × StateSignature))
  | [], acc => .ok acc
  | stateId :: rest, acc =>
    match indexLookup paths stateId with
    | none => generateGo fsm mergeOrders paths rest acc
    | some pathsToState =>
      match buildSignatureForState fsm (mergeOrders stateId) stateId pathsToState with
      | .error e => .error e
      | .ok sig => generateGo fsm mergeOrders paths rest (indexInsert acc stateId sig)

/-- `SignatureGenerator::generate`.  `stateOrder` is the iteration order
of the `HashMap` produced by `find_all_paths` (callers must pass a
permutation of its keys for the model to coincide with a Rust run);
`mergeOrders` gives each state's `HashMap::into_values` order inside
`merge_equivalent_signatures`. -/
def generate (fsm : FunctionBlock) (stateOrder : List String)
    (mergeOrders : String → List String) : Except Unit StateSignatureTable :=
  match generateGo fsm mergeOrders (findAllPaths fsm) stateOrder [] with
  | .error e => .error e
  | .ok sigs => .ok ⟨fsm.name, fsm.case_variable, sigs⟩

/-! ## Matcher (`PathSignature::matches`, `StateSignature::matches_any`,
`StateSignatureTable::verify_state`)

The runtime variable map is an association list.  The ordered
comparisons in `evaluate_condition` parse both sides as `f64` in the
source; binary floating point is not modelled, so the numeric parser
and domain are a parameter `parseNum : String → Option Rat`, and every
theorem involving the matcher quantifies over it. -/

/-- `runtime_vars.get(name)`. -/
def lookupVar (vars : List (String × String)) (k : String) : Option String :=
  (vars.find? (fun p => p.1 = k)).map (fun p => p.2)

/-- `PathSignature::evaluate_condition` with the numeric parse
abstracted: string (in)equality for `=` and `<>`, numeric comparison
for the other four operators with any parse failure giving `false`,
and `false` for an unknown operator. -/
def evaluateCondition (parseNum : String → Option Rat) (cond : Condition)
    (runtimeValue : String) : Bool :=
  match cond.operator with
  | "=" => runtimeValue = cond.value
  | "<>" => runtimeValue ≠ cond.value
  | "<" =>
    match parseNum runtimeValue, parseNum cond.value with
    | some rv, some cv => rv < cv
    | _, _ => false
  | "<=" =>
    match parseNum runtimeValue, parseNum cond.value with
    | some rv, some cv => rv ≤ cv
    | _, _ => false
  | ">" =>
    match parseNum runtimeValue, parseNum cond.value with
    | some rv, some cv => rv > cv
    | _, _ => false
  | ">=" =>
    match parseNum runtimeValue, parseNum cond.value with
    | some rv, some cv => rv ≥ cv
    | _, _ => false
  | _ => false

/-- `PathSignature::matches`: every condition of the conjunction must
evaluate true; a variable absent from the runtime map makes its
condition false. -/
def pathMatches (parseNum : String → Option Rat) (ps : PathSignature)
    (vars : List (String × String)) : Bool :=
  ps.conditions.all (fun cond =>
    match lookupVar vars cond.«variable» with
    | some runtimeValue => evaluateCondition parseNum cond runtimeValue
    | none => false)

/-- `StateSignature::matches_any`: an empty signature list matches
everything (initial state); otherwise any path signature suffices. -/
def matchesAny (parseNum : String → Option Rat) (sig : StateSignature)
    (vars : List (String × String)) : Bool :=
  if sig.path_signatures.isEmpty then true
  else sig.path_signatures.any (fun ps => pathMatches parseNum ps vars)

/-- `StateSignatureTable::verify_state`: an unknown state id is false. -/
def verifyState (parseNum : String → Option Rat) (table : StateSignatureTable)
    (stateId : String) (vars : List (String × String)) : Bool :=
  match indexLookup table.signatures stateId with
  | some sig => matchesAny parseNum sig vars
  | none => false

/-! ## Concrete function blocks (the fixtures of `signatures.rs`'s tests) -/

/-- Build a block by adding states (fresh, per `State::new`) and then
transitions, the way the source's test fixtures do. -/
def buildBlock (nm cv : String) (stateIds : List String)
    (ts : List (String × String × String)) : FunctionBlock :=
  let withStates := stateIds.foldl
    (fun fb sid => fb.addState ⟨sid, none, [], []⟩)
    (FunctionBlock.mk nm cv [] [])
  ts.foldl (fun fb t => fb.addTransition (Transition.make t.1 t.2.1 t.2.2)) withStates

/-- `create_test_fsm`: chain `10 → 20 → 30`. -/
def testFsm : FunctionBlock :=
  buildBlock "TestFB" "state" ["10", "20", "30"]
    [("10", "20", "sensor = low"), ("20", "30", "sensor = high")]

/-- A two-state chain `10 → 20` used by the determinism analysis. -/
def chainFsm : FunctionBlock :=
  buildBlock "ChainFB" "state" ["10", "20"] [("10", "20", "sensor = low")]

/-- `create_cyclic_fsm`: `10 → 20 → 30 → 10`. -/
def cyclicFsm : FunctionBlock :=
  buildBlock "CyclicFB" "state" ["10", "20", "30"]
    [("10", "20", "sensor = low"), ("20", "30", "sensor = high"),
     ("30", "10", "reset = true")]

/-! # Theorems -/

/-- C3: a `StateSignature` with no path signatures matches every
runtime assignment; otherwise it matches iff some `PathSignature`
matches; a `PathSignature` matches iff every atomic of its conjunction
evaluates true against the assignment, where an atomic whose variable
is absent from the assignment evaluates false (captured by the
existence of a looked-up value).  Holds for every numeric parser. -/
theorem matchesAny_pathMatches_semantics (parseNum : String → Option Rat)
    (sig : StateSignature) (vars : List (String × String)) :
    (matchesAny parseNum sig vars = true ↔
      (sig.path_signatures = [] ∨
        ∃ ps ∈ sig.path_signatures, pathMatches parseNum ps vars = true)) ∧
    (∀ ps : PathSignature, pathMatches parseNum ps vars = true ↔
      ∀ c ∈ ps.conditions, ∃ v, lookupVar vars c.«variable» = some v ∧
        evaluateCondition parseNum c v = true) := by
  constructor
  · unfold matchesAny
    rcases h : sig.path_signatures with _ | ⟨ps, rest⟩
    · simp [h]
    · simp only [List.isEmpty_cons, if_neg Bool.false_ne_true, List.any_eq_true]
      constructor
      · intro hx
        exact Or.inr hx
      · rintro (hcontra | hx)
        · exact absurd hcontra (List.cons_ne_nil ps rest)
        · exact hx
  · intro ps
    unfold pathMatches
    rw [List.all_eq_true]
    constructor
    · intro hall c hc
      have := hall c hc
      cases hv : lookupVar vars c.«variable» with
      | none => rw [hv] at this; exact absurd this (by simp)
      | some v => exact ⟨v, rfl, by rw [hv] at this; exact this⟩
    · intro hex c hc
      obtain ⟨v, hv, he⟩ := hex c hc
      rw [hv]
      exact he

/-- C9: `verify_state` on a state id absent from the table is false for
every runtime assignment. -/
theorem verifyState_unknown (parseNum : String → Option Rat)
    (table : StateSignatureTable) (stateId : String)
    (vars : List (String × String))
    (h : indexLookup table.signatures stateId = none) :
    verifyState parseNum table stateId vars = false := by
  unfold verifyState
  rw [h]

/-- Witness for `verifyState_unknown`: the empty table never verifies. -/
theorem verifyState_unknown_witness :
    verifyState (fun _ => none) ⟨"FB", "state", []⟩ "42" [] = false :=
  verifyState_unknown (fun _ => none) ⟨"FB", "state", []⟩ "42" [] rfl

/-- C2: the tokenizer does not run to completion on every string: on
the two-character input `"éé"` (four bytes), `check_keyword("AND")`
slices bytes `0..3`, and byte 3 falls inside the second two-byte
character — a Rust panic (`byte index is not a char boundary`),
modelled as `Except.error ()`. -/
theorem tokenize_panics_on_multibyte : tokenizeStr "éé" = Except.error () := by decide

/-- The operator scan as the claim literally words it: the value is the
text after the operator, trimmed — with no parenthesis stripping. -/
def claimOpScan (cs : List Char) : List (List Char) → Option Condition
  | [] => none
  | op :: rest =>
    match findSub cs op with
    | some pos =>
      some ⟨String.mk (trimChars (cs.take pos)), String.mk op,
        String.mk (trimChars (cs.drop (pos + op.length)))⟩
    | none => claimOpScan cs rest

/-- The atomic parser as the claim literally words it (outer
parentheses stripped, operator chosen by first occurrence over the
ordered list, variable and value merely trimmed). -/
def claimAtomicParse (s : String) : Option Condition :=
  let cs1 := trimChars s.data
  let cs :=
    if cs1.head? = some '(' ∧ cs1.getLast? = some ')' then
      (cs1.drop 1).dropLast
    else cs1
  claimOpScan cs operatorList

/-- C6 counterexample: on `"x = (5)"` the code strips the parentheses
around the value and yields `5`, while the claim's description (value =
text after the operator, trimmed) yields `(5)`. -/
theorem atomic_value_parens_counterexample :
    parseAtomicConditionStr "x = (5)" = some ⟨"x", "=", "5"⟩ ∧
    claimAtomicParse "x = (5)" = some ⟨"x", "=", "(5)"⟩ ∧
    parseAtomicConditionStr "x = (5)" ≠ claimAtomicParse "x = (5)" := by decide

/-- The atomic parser as amended: additionally, one outer parenthesis
pair is stripped from the value (with re-trimming) when the trimmed
value starts with `(` and ends with `)`; and the initial outer
parenthesis strip removes the first and last characters whenever they
are `(` and `)`.  The first operator of the ordered list that occurs is
selected, phrased as the head of the filtered list. -/
def claimAtomicParseAmended (s : String) : Option Condition :=
  let cs1 := trimChars s.data
  let cs :=
    if cs1.head? = some '(' ∧ cs1.getLast? = some ')' then
      (cs1.drop 1).dropLast
    else cs1
  ((operatorList.filterMap
      (fun op => (findSub cs op).map (fun pos => (op, pos)))).head?).map
    (fun q =>
      let varText := trimChars (cs.take q.2)
      let rawValue := trimChars (cs.drop (q.2 + q.1.length))
      let valueText :=
        if rawValue.head? = some '(' ∧ rawValue.getLast? = some ')' then
          trimChars (rawValue.drop 1).dropLast
        else rawValue
      ⟨String.mk varText, String.mk q.1, String.mk valueText⟩)

/-- The source's operator loop equals first-occurrence selection over
the ordered operator list. -/
theorem opScan_eq_head_filterMap (cs : List Char) (ops : List (List Char)) :
    opScan cs ops =
      ((ops.filterMap
          (fun op => (findSub cs op).map (fun pos => (op, pos)))).head?).map
        (fun q =>
          let varText := trimChars (cs.take q.2)
          let rawValue := trimChars (cs.drop (q.2 + q.1.length))
          let valueText :=
            if rawValue.head? = some '(' ∧ rawValue.getLast? = some ')' then
              trimChars (rawValue.drop 1).dropLast
            else rawValue
          ⟨String.mk varText, String.mk q.1, String.mk valueText⟩) := by
  induction ops with
  | nil => rfl
  | cons op rest ih =>
    unfold opScan
    cases h : findSub cs op with
    | none => simpa [h] using ih
    | some pos => simp [h]

/-- C6 as amended: the atomic parser coincides with the amended
description on every input string. -/
theorem parseAtomic_matches_amended_description (s : String) :
    parseAtomicConditionStr s = claimAtomicParseAmended s := by
  unfold parseAtomicConditionStr claimAtomicParseAmended
  exact opScan_eq_head_filterMap _ operatorList

/-- C7 counterexample: the token sequence `( a = 1` — a parenthesised
subexpression not followed by a closing parenthesis, the claim's own
example of an unexpected-token sequence — is accepted by the parser. -/
theorem parse_accepts_unclosed_paren :
    parseTokens [Token.lparen, Token.condition "a = 1"] =
      some (BooleanExpr.atomic ⟨"a", "=", "1"⟩) := by decide

section ParseFailure

variable (ts : List Token)

/-- Failure of `parse_primary` when the head token cannot begin a
primary expression. -/
theorem runParser_primary_bad
    (h : ts.head? = none ∨ ts.head? = some Token.and ∨ ts.head? = some Token.or ∨
      ts.head? = some Token.rparen ∨
      ∃ s, ts.head? = some (Token.condition s) ∧ parseAtomicConditionStr s = none) :
    ∀ fuel, runParser ts fuel .primaryP 0 = none := by
  intro fuel
  cases fuel with
  | zero => rfl
  | succ f =>
    show (match ts.get? 0 with
      | some Token.lparen => _
      | some (Token.condition s) =>
        (parseAtomicConditionStr s).map (fun c => (BooleanExpr.atomic c, 0 + 1))
      | _ => none) = none
    cases ts with
    | nil => rfl
    | cons t rest =>
      rcases h with h | h | h | h | ⟨s, h, hs⟩ <;>
        simp only [List.head?_cons, Option.some.injEq] at h
      · exact absurd h (by simp)
      all_goals subst h
      · rfl
      · rfl
      · rfl
      · show (parseAtomicConditionStr s).map _ = none
        rw [hs]
        rfl

/-- Failure of `parse_not` under the same head tokens (none of them is
`NOT`, so `parse_not` forwards to `parse_primary`). -/
theorem runParser_not_bad
    (h : ts.head? = none ∨ ts.head? = some Token.and ∨ ts.head? = some Token.or ∨
      ts.head? = some Token.rparen ∨
      ∃ s, ts.head? = some (Token.condition s) ∧ parseAtomicConditionStr s = none) :
    ∀ fuel, runParser ts fuel .notP 0 = none := by
  intro fuel
  cases fuel with
  | zero => rfl
  | succ f =>
    have hne : ¬ ts.get? 0 = some Token.not := by
      cases ts with
      | nil => simp
      | cons t rest =>
        rcases h with h | h | h | h | ⟨s, h, _⟩ <;>
          simp only [List.head?_cons, Option.some.injEq] at h <;>
          first
            | exact absurd h (by simp)
            | (subst h; simp)
    show (if ts.get? 0 = some Token.not then _ else runParser ts f .primaryP 0) = none
    rw [if_neg hne]
    exact runParser_primary_bad ts h f

/-- C7 as amended: the expression parser signals failure when the token
sequence is empty or begins with `AND`, `OR`, a closing parenthesis, or
a condition the atomic parser rejects; it does not fail on a missing
closing parenthesis after a parenthesised subexpression, nor on
trailing tokens after a complete expression. -/
theorem parseTokens_failure_characterization :
    (∀ ts : List Token,
      (ts.head? = none ∨ ts.head? = some Token.and ∨ ts.head? = some Token.or ∨
        ts.head? = some Token.rparen ∨
        ∃ s, ts.head? = some (Token.condition s) ∧ parseAtomicConditionStr s = none) →
      parseTokens ts = none) ∧
    parseTokens [Token.lparen, Token.condition "a = 1"] =
      some (BooleanExpr.atomic ⟨"a", "=", "1"⟩) ∧
    parseTokens [Token.condition "a = 1", Token.rparen] =
      some (BooleanExpr.atomic ⟨"a", "=", "1"⟩) := by
  refine ⟨?_, by decide, by decide⟩
  intro ts h
  unfold parseTokens
  have horp : ∀ fuel, runParser ts fuel .orP 0 = none := by
    intro fuel
    cases fuel with
    | zero => rfl
    | succ f =>
      have handp : runParser ts f .andP 0 = none := by
        cases f with
        | zero => rfl
        | succ g =>
          show (match runParser ts g .notP 0 with
            | none => none
            | some (left, pos1) => runParser ts g (.andLoopP left) pos1) = none
          rw [runParser_not_bad ts h g]
      show (match runParser ts f .andP 0 with
        | none => none
        | some (left, pos1) => runParser ts f (.orLoopP left) pos1) = none
      rw [handp]
  rw [horp]
  rfl

/-- Witness for `parseTokens_failure_characterization`: a sequence
starting with `AND` is rejected. -/
theorem parseTokens_failure_witness : parseTokens [Token.and] = none :=
  parseTokens_failure_characterization.1 [Token.and] (Or.inr (Or.inl rfl))

end ParseFailure

/-- The distribution step never empties a DNF. -/
theorem dnfProd_ne_nil {xs ys : List (List Condition)} (hx : xs ≠ []) (hy : ys ≠ []) :
    dnfProd xs ys ≠ [] := by
  rcases xs with _ | ⟨x, xs⟩
  · exact absurd rfl hx
  rcases ys with _ | ⟨y, ys⟩
  · exact absurd rfl hy
  simp [dnfProd]

/-- `to_dnf` yields a non-empty list of conjunctions in both modes. -/
theorem dnfAux_ne_nil (e : BooleanExpr) : ∀ b, dnfAux b e ≠ [] := by
  induction e with
  | atomic c => intro b; cases b <;> simp [dnfAux]
  | and l r ihl ihr =>
    intro b
    cases b
    · exact fun hc => ihl false (List.append_eq_nil.mp hc).1
    · exact dnfProd_ne_nil (ihl true) (ihr true)
  | or l r ihl ihr =>
    intro b
    cases b
    · exact dnfProd_ne_nil (ihl false) (ihr false)
    · exact fun hc => ihl true (List.append_eq_nil.mp hc).1
  | not e ih =>
    intro b
    cases b
    · exact ih true
    · exact ih false

/-- C4 counterexample: parsing a transition condition does not always
return: on the guard `"Aé"` the tokenizer's `check_keyword("OR")`
slices bytes `0..2`, byte 2 falls inside the two-byte `é`, and the
panic propagates out of `parse_transition_condition`. -/
theorem parseTransitionCondition_panic :
    parseTransitionCondition "Aé" = Except.error () := by decide

/-- C4 as amended: whenever `parse_transition_condition` returns (in
particular on every guard whose tokenisation does not panic), the
result is a non-empty list of conjunctions; and when the tokens are
non-empty but the expression parser fails, the result is the simple
`" AND "`-split fallback, which is a single conjunction — so a parse
failure is never propagated upward. -/
theorem parseTransitionCondition_ok_nonempty :
    (∀ s d, parseTransitionCondition s = Except.ok d → d ≠ []) ∧
    (∀ s ts, ¬(s = "" ∨ s = "No Check") → tokenizeStr s = Except.ok ts →
      ts.isEmpty = false → parseTokens ts = none →
      parseTransitionCondition s = Except.ok (parseSimpleCondition s) ∧
      ∃ conj, parseSimpleCondition s = [conj]) := by
  constructor
  · intro s d h
    unfold parseTransitionCondition at h
    split at h
    · cases h
      simp
    · split at h
      · cases h
      · rename_i tokens _
        split at h
        · cases h
          simp
        · split at h
          · cases h
            simp [parseSimpleCondition]
          · rename_i expr _
            cases h
            simpa using dnfAux_ne_nil expr true
  · intro s ts hs htok hne hparse
    constructor
    · unfold parseTransitionCondition
      rw [if_neg hs, htok]
      simp only [hne, Bool.false_eq_true, if_false, hparse]
    · exact ⟨_, rfl⟩

/-- Witness for `parseTransitionCondition_ok_nonempty`: the well-formed
guard `"A = 1"` yields a non-empty DNF, and the operatorless guard
`"A"` (whose tokens defeat the expression parser) falls back to the
simple parser's single conjunction. -/
theorem parseTransitionCondition_ok_nonempty_witness :
    ([[Condition.mk "A" "=" "1"]] : List (List Condition)) ≠ [] ∧
    parseTransitionCondition "A" = Except.ok (parseSimpleCondition "A") ∧
    ∃ conj, parseSimpleCondition "A" = [conj] :=
  ⟨parseTransitionCondition_ok_nonempty.1 "A = 1" [[Condition.mk "A" "=" "1"]] (by decide),
   parseTransitionCondition_ok_nonempty.2 "A" [Token.condition "A"]
     (by decide) (by decide) (by decide) (by decide)⟩

/-- C1: the signature table is not a function of the function block
alone — `generate` iterates a `std::collections::HashMap`, whose
iteration order Rust randomises per map instance, and inserts the
per-state signatures into the table in that order.  Both orders below
are permutations of the paths-map keys of the two-state chain, yet they
produce structurally different tables (the states appear in different
order, which serialisation preserves). -/
theorem generate_depends_on_hash_order :
    (["10", "20"] : List String).Perm ((findAllPaths chainFsm).map Prod.fst) ∧
    (["20", "10"] : List String).Perm ((findAllPaths chainFsm).map Prod.fst) ∧
    generate chainFsm ["10", "20"] (fun _ => []) ≠
      generate chainFsm ["20", "10"] (fun _ => []) := by decide

/-! ## Soundness of the DFS path enumerator -/

/-- Tail of an appended list when the first part is non-empty. -/
theorem tail_append_left {α : Type} (l l' : List α) (h : l ≠ []) :
    (l ++ l').tail = l.tail ++ l' := by
  cases l with
  | nil => exact absurd rfl h
  | cons a as => rfl

/-- Fold preservation of a predicate along a list. -/
theorem foldl_preserve {α β : Type} {P : β → Prop} {g : β → α → β} :
    ∀ (l : List α) (b : β), (∀ a x, x ∈ l → P a → P (g a x)) → P b → P (l.foldl g b)
  | [], _, _, hb => hb
  | x :: xs, b, h, hb =>
    foldl_preserve xs (g b x)
      (fun a y hy => h a y (List.mem_cons_of_mem x hy))
      (h b x (List.mem_cons_self x xs) hb)

/-- Soundness of one record of the paths map: the recorded path starts
at some starting state with no arriving transition, ends at the state
it is recorded under, repeats no state id, and every later step is the
target of the existing transition whose index it carries. -/
def GoodRecord (fsm : FunctionBlock) (starts : List String) (k : String)
    (p : TransitionPath) : Prop :=
  (∃ st ∈ starts, p.head? = some (st, none)) ∧
  (∃ e : String × Option Nat, p.getLast? = some e ∧ e.1 = k) ∧
  (p.map Prod.fst).Nodup ∧
  ∀ e ∈ p.tail, ∃ idx t, fsm.transitions.get? idx = some t ∧ e = (t.to_state, some idx)

/-- Every record of an accumulator is sound. -/
def AllGood (fsm : FunctionBlock) (starts : List String) (acc : PathsMap) : Prop :=
  ∀ q ∈ acc, ∀ p ∈ q.2, GoodRecord fsm starts q.1 p

/-- Invariant carried by every `dfs` call of a walk rooted at `st`. -/
def DfsInv (fsm : FunctionBlock) (starts : List String) (st current : String)
    (visited : List String) (p : TransitionPath) : Prop :=
  st ∈ starts ∧
  p.head? = some (st, none) ∧
  (∃ e : String × Option Nat, p.getLast? = some e ∧ e.1 = current) ∧
  (p.map Prod.fst).Nodup ∧
  (∀ x ∈ p.map Prod.fst, x ∈ current :: visited) ∧
  st ∈ current :: visited ∧
  ∀ e ∈ p.tail, ∃ idx t, fsm.transitions.get? idx = some t ∧ e = (t.to_state, some idx)

/-- Pushing a sound record preserves accumulator soundness. -/
theorem pushPath_allGood {fsm : FunctionBlock} {starts : List String}
    {acc : PathsMap} {k : String} {p : TransitionPath}
    (hacc : AllGood fsm starts acc) (hp : GoodRecord fsm starts k p) :
    AllGood fsm starts (pushPath acc k p) := by
  unfold pushPath
  split
  · intro q hq p' hp'
    rw [List.mem_map] at hq
    obtain ⟨q0, hq0, rfl⟩ := hq
    by_cases hk : q0.1 = k
    · rw [if_pos hk] at hp' ⊢
      rcases List.mem_append.mp hp' with h | h
      · exact hacc q0 hq0 p' h
      · rw [List.mem_singleton] at h
        subst h
        rw [hk]
        exact hp
    · rw [if_neg hk] at hp' ⊢
      exact hacc q0 hq0 p' hp'
  · intro q hq p' hp'
    rcases List.mem_append.mp hq with h | h
    · exact hacc q h p' hp'
    · rw [List.mem_singleton] at h
      subst h
      rw [List.mem_singleton] at hp'
      subst hp'
      exact hp

/-- The DFS only adds sound records, for any fuel. -/
theorem dfs_allGood (fsm : FunctionBlock) (starts : List String) :
    ∀ (fuel : Nat) (current : String) (visited : List String)
      (p : TransitionPath) (acc : PathsMap) (st : String),
      DfsInv fsm starts st current visited p → AllGood fsm starts acc →
      AllGood fsm starts (dfs fsm fuel current visited p acc) := by
  intro fuel
  induction fuel with
  | zero => intro _ _ _ acc _ _ hacc; exact hacc
  | succ f ih =>
    intro current visited p acc st hinv hacc
    obtain ⟨hst, hhead, hlast, hnodup, hsub, hstv, htail⟩ := hinv
    have hpne : p ≠ [] := by
      intro hnil
      rw [hnil] at hhead
      cases hhead
    show AllGood fsm starts ((fsm.transitions.enum).foldl _ _)
    refine foldl_preserve _ _ ?_
      (pushPath_allGood hacc ⟨⟨st, hst, hhead⟩, hlast, hnodup, htail⟩)
    intro b x hx hb
    dsimp only
    split
    · rename_i hcond
      have hgt : fsm.transitions.get? x.1 = some x.2 := by
        rw [List.get?_eq_getElem?]
        exact List.mem_enum_iff_getElem?.mp hx
      refine ih x.2.to_state (current :: visited)
        (p ++ [(x.2.to_state, some x.1)]) b st ?_ hb
      refine ⟨hst, ?_, ⟨(x.2.to_state, some x.1), List.getLast?_concat _, rfl⟩,
        ?_, ?_, ?_, ?_⟩
      · rw [List.head?_append, hhead]
        rfl
      · rw [List.map_append, List.nodup_append]
        refine ⟨hnodup, List.nodup_singleton _, ?_⟩
        intro y hy hy2
        rw [List.map_singleton, List.mem_singleton] at hy2
        subst hy2
        exact hcond.2 (hsub _ hy)
      · intro y hy
        rw [List.map_append] at hy
        rcases List.mem_append.mp hy with hy | hy
        · exact List.mem_cons_of_mem _ (hsub y hy)
        · rw [List.map_singleton, List.mem_singleton] at hy
          subst hy
          exact List.mem_cons_self _ _
      · exact List.mem_cons_of_mem _ hstv
      · intro e he
        rw [tail_append_left _ _ hpne] at he
        rcases List.mem_append.mp he with he | he
        · exact htail e he
        · rw [List.mem_singleton] at he
          subst he
          exact ⟨x.1, x.2, hgt, rfl⟩
    · exact hb

/-- Every record of `find_all_paths` is sound. -/
theorem findAllPaths_allGood (fsm : FunctionBlock) :
    AllGood fsm (startingStates fsm) (findAllPaths fsm) := by
  unfold findAllPaths
  refine foldl_preserve _ _ ?_ ?_
  · intro b s hs hb
    refine dfs_allGood fsm _ _ s [] [(s, none)] b s ?_ hb
    refine ⟨hs, rfl, ⟨(s, none), rfl, rfl⟩, ?_, ?_, ?_, ?_⟩
    · exact List.nodup_singleton _
    · intro x hx
      simpa using hx
    · exact List.mem_cons_self _ _
    · intro e he
      cases he
  · intro q hq
    cases hq

/-- C5: every path emitted by the path enumerator visits each state id
at most once — the state ids along any path recorded for any state
contain no duplicates. -/
theorem emitted_paths_acyclic (fsm : FunctionBlock) (stateId : String)
    (ps : List TransitionPath) (p : TransitionPath)
    (hlookup : indexLookup (findAllPaths fsm) stateId = some ps) (hp : p ∈ ps) :
    (p.map Prod.fst).Nodup := by
  unfold indexLookup at hlookup
  cases hfind : (findAllPaths fsm).find? (fun q => q.1 = stateId) with
  | none => rw [hfind] at hlookup; cases hlookup
  | some q =>
    rw [hfind] at hlookup
    cases hlookup
    have hmem : q ∈ findAllPaths fsm := List.mem_of_find?_eq_some hfind
    exact (findAllPaths_allGood fsm q hmem p hp).2.2.1

/-- Witness for `emitted_paths_acyclic`: the path to state `30` of the
three-state chain repeats no state. -/
theorem emitted_paths_acyclic_witness :
    (([("10", none), ("20", some 0), ("30", some 1)] :
        TransitionPath).map Prod.fst).Nodup :=
  emitted_paths_acyclic testFsm "30"
    [[("10", none), ("20", some 0), ("30", some 1)]]
    [("10", none), ("20", some 0), ("30", some 1)]
    (by decide) (by decide)

/-! ## Initial-state inference (`find_initial_states` and the fallback) -/

/-- Well-formedness of a function block as the extractor hands it to
the core: the state map's keys are unique and are the states' own ids,
and a state's `transitions_in` list is empty exactly when no transition
targets it (`add_transition` maintains both sides when every endpoint
state exists, which the spec's data model guarantees). -/
def WF (fsm : FunctionBlock) : Prop :=
  (fsm.states.map Prod.fst).Nodup ∧
  ∀ q ∈ fsm.states, q.2.id = q.1 ∧
    (q.2.transitions_in = [] ↔ ∀ t ∈ fsm.transitions, t.to_state ≠ q.1)

instance (fsm : FunctionBlock) : Decidable (WF fsm) :=
  inferInstanceAs (Decidable (_ ∧ _))

/-- The starting-state selection as the claim words it: the states that
no transition targets; if there are none, state id `"100"` when
present among the keys, else `"10"` when present, else the first state
in insertion order; and no states at all gives no starting states. -/
def claimStartingStates (fsm : FunctionBlock) : List String :=
  let withNoIncoming := fsm.states.filterMap
    (fun q => if fsm.transitions.all (fun t => t.to_state ≠ q.1) then some q.1 else none)
  if withNoIncoming.isEmpty then
    if (fsm.states.map Prod.fst).contains "100" then ["100"]
    else if (fsm.states.map Prod.fst).contains "10" then ["10"]
    else match fsm.states.head? with
      | some q => [q.1]
      | none => []
  else withNoIncoming

/-- Filtering through an `if` is mapping over a filter. -/
theorem filterMap_if_eq_map_filter {α β : Type} (f : α → β) (c : α → Bool)
    (l : List α) :
    l.filterMap (fun a => if c a then some (f a) else none) = (l.filter c).map f := by
  induction l with
  | nil => rfl
  | cons a as ih =>
    by_cases h : c a = true <;>
      simp [List.filterMap_cons, List.filter_cons, h, ih]

/-- Two boolean expressions agreeing as propositions are equal. -/
theorem bool_eq_of_true_iff {a b : Bool} (h : a = true ↔ b = true) : a = b := by
  cases a <;> cases b <;> simp_all

/-- Under well-formedness, `find_initial_states` computes exactly the
states no transition targets. -/
theorem findInitialStates_eq_claim (fsm : FunctionBlock) (hwf : WF fsm) :
    findInitialStates fsm = fsm.states.filterMap
      (fun q => if fsm.transitions.all (fun t => t.to_state ≠ q.1) then some q.1 else none) := by
  unfold findInitialStates
  rw [List.filterMap_map]
  refine List.filterMap_congr ?_
  intro q hq
  obtain ⟨hid, hiff⟩ := hwf.2 q hq
  have hcond : q.2.transitions_in.isEmpty
      = fsm.transitions.all (fun t => t.to_state ≠ q.1) := by
    refine bool_eq_of_true_iff ?_
    rw [List.isEmpty_iff, List.all_eq_true, hiff]
    constructor
    · intro h t ht
      exact decide_eq_true (h t ht)
    · intro h t ht
      exact of_decide_eq_true (h t ht)
  show (if q.2.transitions_in.isEmpty then some q.2.id else none) = _
  rw [hcond, hid]

/-- C8: under well-formedness, the starting states for path enumeration
are exactly as the claim describes them — the states with no incoming
transitions, with the `"100"`/`"10"`/first-state fallback when there
are none — and a block with no states yields an empty path map. -/
theorem startingStates_characterization (fsm : FunctionBlock) (hwf : WF fsm) :
    startingStates fsm = claimStartingStates fsm ∧
    (fsm.states = [] → findAllPaths fsm = []) := by
  constructor
  · unfold startingStates claimStartingStates
    rw [findInitialStates_eq_claim fsm hwf]
    have hcontains : ∀ k : String,
        fsm.states.any (fun p => p.1 = k) = (fsm.states.map Prod.fst).contains k := by
      intro k
      refine bool_eq_of_true_iff ?_
      rw [List.any_eq_true, List.contains_iff_exists_mem_beq]
      constructor
      · rintro ⟨q, hq, hq1⟩
        refine ⟨q.1, List.mem_map_of_mem Prod.fst hq, ?_⟩
        rw [beq_iff_eq]
        exact (of_decide_eq_true hq1).symm
      · rintro ⟨x, hx, hbeq⟩
        rw [List.mem_map] at hx
        obtain ⟨q, hq, rfl⟩ := hx
        exact ⟨q, hq, decide_eq_true (beq_iff_eq.mp hbeq).symm⟩
    unfold findFallbackInitialState
    rw [hcontains "100", hcontains "10"]
  · intro h
    unfold findAllPaths startingStates findInitialStates findFallbackInitialState
    rw [h]
    rfl

/-- Witness for `startingStates_characterization` on the three-state
chain (whose only start is state `10`). -/
theorem startingStates_characterization_witness :
    startingStates testFsm = claimStartingStates testFsm ∧
    (testFsm.states = [] → findAllPaths testFsm = []) :=
  startingStates_characterization testFsm (by decide)

/-! ## The paths-map entry of an inferred initial state -/

/-- Lookup through a map that alters only the entry of another key. -/
theorem indexLookup_map_keyfix {α : Type} (m : List (String × α))
    (f : String × α → String × α) (k s : String) (hks : k ≠ s)
    (hfst : ∀ q, (f q).1 = q.1) (hid : ∀ q, ¬ q.1 = k → f q = q) :
    indexLookup (m.map f) s = indexLookup m s := by
  induction m with
  | nil => rfl
  | cons q rest ih =>
    by_cases hq : q.1 = s
    · have hfq : f q = q := hid q (fun h => hks (h.symm.trans hq))
      simp [indexLookup, List.find?, hfq, hq]
    · have h1 : ¬ ((f q).1 = s) := by
        rw [hfst q]
        exact hq
      unfold indexLookup
      rw [List.map_cons, List.find?_cons_of_neg _ (by simpa using h1),
        List.find?_cons_of_neg _ (by simpa using hq)]
      exact ih

/-- Appending an entry with a fresh key does not change other lookups. -/
theorem indexLookup_append_ne {α : Type} (m : List (String × α)) (k s : String)
    (v : α) (hks : k ≠ s) :
    indexLookup (m ++ [(k, v)]) s = indexLookup m s := by
  induction m with
  | nil => simp [indexLookup, List.find?, hks]
  | cons q rest ih =>
    by_cases hq : q.1 = s <;>
      simp_all [indexLookup, List.find?]

/-- Appending an entry with a key absent from the map makes it the
lookup result for that key. -/
theorem indexLookup_append_new {α : Type} (m : List (String × α)) (k : String)
    (v : α) (h : ∀ q ∈ m, ¬ q.1 = k) :
    indexLookup (m ++ [(k, v)]) k = some v := by
  induction m with
  | nil => simp [indexLookup, List.find?]
  | cons q rest ih =>
    have hq : ¬ q.1 = k := h q (List.mem_cons_self q rest)
    have hrest : ∀ x ∈ rest, ¬ x.1 = k :=
      fun x hx => h x (List.mem_cons_of_mem q hx)
    simpa [indexLookup, List.find?, hq] using ih hrest

/-- An absent lookup is the same as a false existence check. -/
theorem indexLookup_eq_none_iff_any {α : Type} (m : List (String × α)) (k : String) :
    indexLookup m k = none ↔ m.any (fun q => q.1 = k) = false := by
  induction m with
  | nil => simp [indexLookup]
  | cons q rest ih =>
    by_cases hq : q.1 = k <;> simp_all [indexLookup, List.find?]

/-- Pushing a path for a different key leaves a lookup unchanged. -/
theorem pushPath_lookup_ne {acc : PathsMap} {k s : String} {p : TransitionPath}
    (hks : k ≠ s) :
    indexLookup (pushPath acc k p) s = indexLookup acc s := by
  unfold pushPath
  split
  · refine indexLookup_map_keyfix acc _ k s hks ?_ ?_
    · intro q
      dsimp only
      split <;> rfl
    · intro q hq
      dsimp only
      rw [if_neg hq]
  · exact indexLookup_append_ne acc k s [p] hks

/-- Pushing a path for an absent key creates its singleton entry. -/
theorem pushPath_lookup_new {acc : PathsMap} {k : String} {p : TransitionPath}
    (h : indexLookup acc k = none) :
    indexLookup (pushPath acc k p) k = some [p] := by
  have hany := (indexLookup_eq_none_iff_any acc k).mp h
  unfold pushPath
  rw [hany]
  simp only [Bool.false_eq_true, if_false]
  refine indexLookup_append_new acc k [p] ?_
  intro q hq hqk
  rw [List.any_eq_false] at hany
  exact hany q hq (decide_eq_true hqk)

/-- A DFS whose current state differs from `s` and can never reach `s`
(`s` is already visited, or no transition targets `s`) leaves the entry
of `s` unchanged. -/
theorem dfs_lookup_frozen (fsm : FunctionBlock) (s : String) :
    ∀ (fuel : Nat) (current : String) (visited : List String)
      (p : TransitionPath) (acc : PathsMap),
      current ≠ s →
      (s ∈ visited ∨ ∀ t ∈ fsm.transitions, t.to_state ≠ s) →
      indexLookup (dfs fsm fuel current visited p acc) s = indexLookup acc s := by
  intro fuel
  induction fuel with
  | zero => intro _ _ _ acc _ _; rfl
  | succ f ih =>
    intro current visited p acc hcur hside
    show indexLookup ((fsm.transitions.enum).foldl _ (pushPath acc current p)) s = _
    refine foldl_preserve
      (P := fun b => indexLookup b s = indexLookup acc s) _ _ ?_
      (pushPath_lookup_ne hcur)
    intro b x hx hb
    dsimp only
    split
    · rename_i hcond
      have hxmem : x.2 ∈ fsm.transitions := by
        have hgt : fsm.transitions.get? x.1 = some x.2 := by
          rw [List.get?_eq_getElem?]
          exact List.mem_enum_iff_getElem?.mp hx
        exact List.get?_mem hgt
      have hto : x.2.to_state ≠ s := by
        rcases hside with hv | hnt
        · intro he
          exact hcond.2 (by rw [he]; exact List.mem_cons_of_mem _ hv)
        · exact hnt x.2 hxmem
      have hside2 : s ∈ (current :: visited) ∨ ∀ t ∈ fsm.transitions, t.to_state ≠ s := by
        rcases hside with hv | hnt
        · exact Or.inl (List.mem_cons_of_mem _ hv)
        · exact Or.inr hnt
      rw [ih x.2.to_state (current :: visited) _ b hto hside2]
      exact hb
    · exact hb

/-- The root call of a walk records exactly one entry for its root:
the trivial path pushed on entry; the children (which all carry the
root in their visited set) add nothing for it. -/
theorem dfs_root_lookup (fsm : FunctionBlock) (fuel : Nat) (s : String)
    (visited : List String) (acc : PathsMap) :
    indexLookup (dfs fsm (fuel + 1) s visited [(s, none)] acc) s =
      indexLookup (pushPath acc s [(s, none)]) s := by
  show indexLookup ((fsm.transitions.enum).foldl _ (pushPath acc s [(s, none)])) s = _
  refine foldl_preserve
    (P := fun b => indexLookup b s = indexLookup (pushPath acc s [(s, none)]) s)
    _ _ ?_ rfl
  intro b x hx hb
  dsimp only
  split
  · rename_i hcond
    have hto : x.2.to_state ≠ s := fun he =>
      hcond.2 (by rw [he]; exact List.mem_cons_self s visited)
    rw [dfs_lookup_frozen fsm s fuel x.2.to_state (s :: visited) _ b hto
      (Or.inl (List.mem_cons_self s visited))]
    exact hb
  · exact hb

/-- A starting state is either a genuinely initial state (the target of
no transition, and then different walks have distinct roots) or the
single fallback start. -/
theorem startingStates_cases (fsm : FunctionBlock) (hwf : WF fsm) (s : String)
    (hs : s ∈ startingStates fsm) :
    ((∀ t ∈ fsm.transitions, t.to_state ≠ s) ∧ (startingStates fsm).Nodup) ∨
    startingStates fsm = [s] := by
  unfold startingStates at hs ⊢
  by_cases hinit : (findInitialStates fsm).isEmpty = true
  · right
    rw [if_pos hinit] at hs ⊢
    unfold findFallbackInitialState at hs ⊢
    by_cases h1 : fsm.states.any (fun p => p.1 = "100") = true
    · rw [if_pos h1] at hs ⊢
      rw [List.mem_singleton] at hs
      rw [hs]
    · rw [if_neg h1] at hs ⊢
      by_cases h2 : fsm.states.any (fun p => p.1 = "10") = true
      · rw [if_pos h2] at hs ⊢
        rw [List.mem_singleton] at hs
        rw [hs]
      · rw [if_neg h2] at hs ⊢
        cases hh : fsm.states.head? with
        | none => rw [hh] at hs; exact absurd hs (by simp)
        | some q =>
          rw [hh] at hs
          have hs2 : s ∈ [q.1] := hs
          rw [List.mem_singleton] at hs2
          show [q.1] = [s]
          rw [hs2]
  · left
    rw [if_neg hinit] at hs ⊢
    constructor
    · rw [findInitialStates_eq_claim fsm hwf, List.mem_filterMap] at hs
      obtain ⟨q, hq, hqe⟩ := hs
      by_cases hall : fsm.transitions.all (fun t => t.to_state ≠ q.1) = true
      · rw [if_pos hall] at hqe
        cases hqe
        rw [List.all_eq_true] at hall
        intro t ht
        exact of_decide_eq_true (hall t ht)
      · rw [if_neg hall] at hqe
        cases hqe
    · rw [findInitialStates_eq_claim fsm hwf, filterMap_if_eq_map_filter]
      exact hwf.1.sublist ((List.filter_sublist _).map Prod.fst)

/-- The entry an inferred initial state receives in the paths map is
exactly the singleton trivial path `[(s, none)]`: its own walk pushes
it on entry, its descendants cannot revisit it, and — whether because
no transition targets it or because it is the only start — no other
walk ever reaches it. -/
theorem findAllPaths_start_entry (fsm : FunctionBlock) (hwf : WF fsm) (s : String)
    (hs : s ∈ startingStates fsm) :
    indexLookup (findAllPaths fsm) s = some [[(s, none)]] := by
  rcases startingStates_cases fsm hwf s hs with ⟨hnt, hnodup⟩ | hsingle
  · obtain ⟨l1, l2, hsplit⟩ := List.append_of_mem hs
    have hfrozen : ∀ (l : List String), (∀ r ∈ l, r ≠ s) → ∀ acc : PathsMap,
        indexLookup
          (l.foldl
            (fun acc r =>
              dfs fsm (fsm.states.length + fsm.transitions.length + 1)
                r [] [(r, none)] acc) acc) s
          = indexLookup acc s := by
      intro l
      induction l with
      | nil => intro _ acc; rfl
      | cons r rest ih =>
        intro hr acc
        rw [List.foldl_cons,
          ih (fun x hx => hr x (List.mem_cons_of_mem r hx)),
          dfs_lookup_frozen fsm s _ r [] [(r, none)] acc
            (hr r (List.mem_cons_self r rest)) (Or.inr hnt)]
    rw [hsplit] at hnodup
    rw [List.nodup_append] at hnodup
    have hs_l1 : ∀ r ∈ l1, r ≠ s := fun r hr he =>
      hnodup.2.2 (he ▸ hr) (List.mem_cons_self s l2)
    have hs_l2 : ∀ r ∈ l2, r ≠ s := fun r hr he => by
      have := (List.nodup_cons.mp hnodup.2.1).1
      rw [he] at hr
      exact this hr
    unfold findAllPaths
    rw [hsplit, List.foldl_append, List.foldl_cons]
    rw [hfrozen l2 hs_l2]
    rw [dfs_root_lookup fsm (fsm.states.length + fsm.transitions.length) s []]
    refine pushPath_lookup_new ?_
    rw [hfrozen l1 hs_l1 []]
    rfl
  · unfold findAllPaths
    rw [hsingle, List.foldl_cons, List.foldl_nil,
      dfs_root_lookup fsm (fsm.states.length + fsm.transitions.length) s []]
    exact pushPath_lookup_new rfl

/-! ## Key uniqueness of the paths map -/

/-- Pushing a path preserves key uniqueness. -/
theorem pushPath_keys_nodup {acc : PathsMap} {k : String} {p : TransitionPath}
    (h : (acc.map Prod.fst).Nodup) : ((pushPath acc k p).map Prod.fst).Nodup := by
  unfold pushPath
  split
  · have hkeys : (acc.map (fun q => if q.1 = k then (q.1, q.2 ++ [p]) else q)).map Prod.fst
        = acc.map Prod.fst := by
      rw [List.map_map]
      refine List.map_congr_left ?_
      intro q _
      dsimp only [Function.comp]
      split <;> rfl
    rw [hkeys]
    exact h
  · rename_i hany
    rw [List.map_append, List.nodup_append]
    refine ⟨h, List.nodup_singleton _, ?_⟩
    intro x hx hx2
    rw [List.map_singleton, List.mem_singleton] at hx2
    subst hx2
    rw [List.mem_map] at hx
    obtain ⟨q, hq, hq1⟩ := hx
    exact hany (by rw [List.any_eq_true]; exact ⟨q, hq, decide_eq_true hq1⟩)

/-- The DFS preserves key uniqueness of the accumulator. -/
theorem dfs_keys_nodup (fsm : FunctionBlock) :
    ∀ (fuel : Nat) (current : String) (visited : List String)
      (p : TransitionPath) (acc : PathsMap),
      ((acc : PathsMap).map Prod.fst).Nodup →
      ((dfs fsm fuel current visited p acc).map Prod.fst).Nodup := by
  intro fuel
  induction fuel with
  | zero => intro _ _ _ acc h; exact h
  | succ f ih =>
    intro current visited p acc h
    show (((fsm.transitions.enum).foldl _ (pushPath acc current p)).map Prod.fst).Nodup
    refine foldl_preserve
      (P := fun b => ((b : PathsMap).map Prod.fst).Nodup) _ _ ?_
      (pushPath_keys_nodup h)
    intro b x hx hb
    dsimp only
    split
    · exact ih _ _ _ b hb
    · exact hb

/-- `find_all_paths` keys each state at most once. -/
theorem findAllPaths_keys_nodup (fsm : FunctionBlock) :
    ((findAllPaths fsm).map Prod.fst).Nodup := by
  unfold findAllPaths
  refine foldl_preserve
    (P := fun b => ((b : PathsMap).map Prod.fst).Nodup) _ _ ?_ List.nodup_nil
  intro b x hx hb
  exact dfs_keys_nodup fsm _ _ _ _ b hb

/-! ## Lookup through `generate` -/

/-- Lookup of key `k` after replacing its entry in place. -/
theorem indexLookup_map_set {α : Type} (m : List (String × α)) (k : String) (v : α)
    (hmem : m.any (fun p => p.1 = k) = true) :
    indexLookup (m.map (fun p => if p.1 = k then (k, v) else p)) k = some v := by
  induction m with
  | nil => exact absurd hmem (by simp)
  | cons q rest ih =>
    by_cases hq : q.1 = k
    · simp [indexLookup, List.find?, hq]
    · have hrest : rest.any (fun p => p.1 = k) = true := by
        rw [List.any_cons] at hmem
        rcases Bool.or_eq_true_iff.mp hmem with h | h
        · exact absurd (of_decide_eq_true h) hq
        · exact h
      simpa [indexLookup, List.find?, hq] using ih hrest

/-- `IndexMap::insert` followed by a lookup of the same key. -/
theorem indexInsert_lookup_self {α : Type} (m : List (String × α)) (k : String)
    (v : α) : indexLookup (indexInsert m k v) k = some v := by
  unfold indexInsert
  by_cases hany : m.any (fun p => p.1 = k) = true
  · rw [if_pos hany]
    exact indexLookup_map_set m k v hany
  · rw [if_neg hany]
    refine indexLookup_append_new m k v ?_
    intro q hq hqk
    exact hany (by rw [List.any_eq_true]; exact ⟨q, hq, decide_eq_true hqk⟩)

/-- `IndexMap::insert` does not disturb lookups of other keys. -/
theorem indexInsert_lookup_ne {α : Type} (m : List (String × α)) (k s : String)
    (v : α) (hks : k ≠ s) :
    indexLookup (indexInsert m k v) s = indexLookup m s := by
  unfold indexInsert
  split
  · refine indexLookup_map_keyfix m _ k s hks ?_ ?_
    · intro q
      dsimp only
      split
      · rename_i h
        exact h.symm
      · rfl
    · intro q hq
      dsimp only
      rw [if_neg hq]
  · exact indexLookup_append_ne m k s v hks

/-- The `generate` loop does not disturb the table entry of a state id
it never visits. -/
theorem generateGo_lookup_frozen (fsm : FunctionBlock)
    (mergeOrders : String → List String) (paths : PathsMap) (s : String) :
    ∀ (order : List String) (acc final : List (String × StateSignature)),
      s ∉ order →
      generateGo fsm mergeOrders paths order acc = Except.ok final →
      indexLookup final s = indexLookup acc s := by
  intro order
  induction order with
  | nil =>
    intro acc final _ hgen
    cases hgen
    rfl
  | cons sid rest ih =>
    intro acc final hns hgen
    have hsid : sid ≠ s := fun he => hns (by rw [he]; exact List.mem_cons_self s rest)
    have hns2 : s ∉ rest := fun hmem => hns (List.mem_cons_of_mem sid hmem)
    unfold generateGo at hgen
    cases hlp : indexLookup paths sid with
    | none =>
      rw [hlp] at hgen
      exact ih acc final hns2 hgen
    | some ps =>
      rw [hlp] at hgen
      have hgen2 : (match buildSignatureForState fsm (mergeOrders sid) sid ps with
          | Except.error e => Except.error e
          | Except.ok sg =>
            generateGo fsm mergeOrders paths rest (indexInsert acc sid sg))
          = Except.ok final := hgen
      cases hb : buildSignatureForState fsm (mergeOrders sid) sid ps with
      | error e =>
        rw [hb] at hgen2
        exact Except.noConfusion hgen2
      | ok sig =>
        rw [hb] at hgen2
        rw [ih _ final hns2 hgen2]
        exact indexInsert_lookup_ne acc sid s sig hsid

/-- When the `generate` loop visits a state id exactly once, the final
table holds the signature built for that state's recorded paths. -/
theorem generateGo_lookup_found (fsm : FunctionBlock)
    (mergeOrders : String → List String) (paths : PathsMap) (s : String)
    (ps : List TransitionPath) (sig : StateSignature) :
    ∀ (order : List String) (acc final : List (String × StateSignature)),
      s ∈ order → order.Nodup →
      indexLookup paths s = some ps →
      buildSignatureForState fsm (mergeOrders s) s ps = Except.ok sig →
      generateGo fsm mergeOrders paths order acc = Except.ok final →
      indexLookup final s = some sig := by
  intro order
  induction order with
  | nil => intro _ _ h; cases h
  | cons sid rest ih =>
    intro acc final hmem hnodup hlp hbuild hgen
    by_cases hsid : sid = s
    · subst hsid
      unfold generateGo at hgen
      rw [hlp] at hgen
      have hgen2 : (match buildSignatureForState fsm (mergeOrders sid) sid ps with
          | Except.error e => Except.error e
          | Except.ok sg =>
            generateGo fsm mergeOrders paths rest (indexInsert acc sid sg))
          = Except.ok final := hgen
      rw [hbuild] at hgen2
      have hs_rest : sid ∉ rest := (List.nodup_cons.mp hnodup).1
      rw [generateGo_lookup_frozen fsm mergeOrders paths sid rest _ final hs_rest hgen2]
      exact indexInsert_lookup_self acc sid sig
    · have hmem2 : s ∈ rest := by
        rcases List.mem_cons.mp hmem with h | h
        · exact absurd h.symm hsid
        · exact h
      have hnodup2 := (List.nodup_cons.mp hnodup).2
      unfold generateGo at hgen
      cases hlp2 : indexLookup paths sid with
      | none =>
        rw [hlp2] at hgen
        exact ih acc final hmem2 hnodup2 hlp hbuild hgen
      | some ps2 =>
        rw [hlp2] at hgen
        have hgen2 : (match buildSignatureForState fsm (mergeOrders sid) sid ps2 with
            | Except.error e => Except.error e
            | Except.ok sg =>
              generateGo fsm mergeOrders paths rest (indexInsert acc sid sg))
            = Except.ok final := hgen
        cases hb2 : buildSignatureForState fsm (mergeOrders sid) sid ps2 with
        | error e =>
          rw [hb2] at hgen2
          exact Except.noConfusion hgen2
        | ok sig2 =>
          rw [hb2] at hgen2
          exact ih _ final hmem2 hnodup2 hlp hbuild hgen2

/-- Building the signature of a state whose only recorded path is the
trivial one: no transition contributes, the cross product is the single
empty conjunction, and merging keeps the single signature. -/
theorem buildSignature_initial (fsm : FunctionBlock) (keyOrder : List String)
    (s : String) :
    buildSignatureForState fsm keyOrder s [[(s, none)]] =
      Except.ok ⟨s, [⟨[], 0⟩], 1⟩ := rfl

/-- C10: an inferred initial state's `StateSignature` holds exactly one
`PathSignature`, whose conjunction is empty (the list of path
signatures is not empty); an empty conjunction matches every runtime
assignment; hence `verify_state` on an inferred initial state is true
for every assignment.  `stateOrder` ranges over the possible `HashMap`
iteration orders of the paths map. -/
theorem initial_state_signature (fsm : FunctionBlock)
    (parseNum : String → Option Rat) (stateOrder : List String)
    (mergeOrders : String → List String) (table : StateSignatureTable)
    (s : String) (hwf : WF fsm) (hs : s ∈ startingStates fsm)
    (hperm : stateOrder.Perm ((findAllPaths fsm).map Prod.fst))
    (hgen : generate fsm stateOrder mergeOrders = Except.ok table) :
    indexLookup table.signatures s = some ⟨s, [⟨[], 0⟩], 1⟩ ∧
    (∀ vars, pathMatches parseNum ⟨[], 0⟩ vars = true) ∧
    ∀ vars, verifyState parseNum table s vars = true := by
  have hpaths := findAllPaths_start_entry fsm hwf s hs
  have hskeys : s ∈ (findAllPaths fsm).map Prod.fst := by
    unfold indexLookup at hpaths
    cases hf : (findAllPaths fsm).find? (fun q => q.1 = s) with
    | none => rw [hf] at hpaths; cases hpaths
    | some q =>
      have hqmem := List.mem_of_find?_eq_some hf
      have hq1 : q.1 = s := by
        have h2 := List.find?_some hf
        simpa using h2
      exact hq1 ▸ List.mem_map_of_mem Prod.fst hqmem
  have hsorder : s ∈ stateOrder := hperm.mem_iff.mpr hskeys
  have hnodup : stateOrder.Nodup := hperm.nodup_iff.mpr (findAllPaths_keys_nodup fsm)
  unfold generate at hgen
  cases hgo : generateGo fsm mergeOrders (findAllPaths fsm) stateOrder [] with
  | error e =>
    rw [hgo] at hgen
    exact Except.noConfusion hgen
  | ok sigs =>
    rw [hgo] at hgen
    have hgen2 : Except.ok (StateSignatureTable.mk fsm.name fsm.case_variable sigs)
        = Except.ok table := hgen
    cases hgen2
    have hlook : indexLookup sigs s = some ⟨s, [⟨[], 0⟩], 1⟩ :=
      generateGo_lookup_found fsm mergeOrders (findAllPaths fsm) s [[(s, none)]]
        ⟨s, [⟨[], 0⟩], 1⟩ stateOrder [] sigs hsorder hnodup hpaths
        (buildSignature_initial fsm (mergeOrders s) s) hgo
    refine ⟨hlook, fun vars => rfl, fun vars => ?_⟩
    unfold verifyState
    rw [show (StateSignatureTable.mk fsm.name fsm.case_variable sigs).signatures
        = sigs from rfl, hlook]
    rfl

/-- Witness for `initial_state_signature` on the three-state chain:
state `10` receives the single empty-conjunction signature and
verifies against an arbitrary assignment. -/
theorem initial_state_signature_witness :
    indexLookup
        (StateSignatureTable.mk "TestFB" "state"
          [("30", ⟨"30", [⟨[⟨"sensor", "=", "high"⟩, ⟨"sensor", "=", "low"⟩], 0⟩], 1⟩),
           ("10", ⟨"10", [⟨[], 0⟩], 1⟩),
           ("20", ⟨"20", [⟨[⟨"sensor", "=", "low"⟩], 0⟩], 1⟩)]).signatures "10"
      = some ⟨"10", [⟨[], 0⟩], 1⟩ ∧
    verifyState (fun _ => none)
        (StateSignatureTable.mk "TestFB" "state"
          [("30", ⟨"30", [⟨[⟨"sensor", "=", "high"⟩, ⟨"sensor", "=", "low"⟩], 0⟩], 1⟩),
           ("10", ⟨"10", [⟨[], 0⟩], 1⟩),
           ("20", ⟨"20", [⟨[⟨"sensor", "=", "low"⟩], 0⟩], 1⟩)])
        "10" [("x", "1")] = true :=
  ⟨(initial_state_signature testFsm (fun _ => none) ["30", "10", "20"] (fun _ => [])
      _ "10" (by decide) (by decide) (by decide) (by decide)).1,
   (initial_state_signature testFsm (fun _ => none) ["30", "10", "20"] (fun _ => [])
      _ "10" (by decide) (by decide) (by decide) (by decide)).2.2 [("x", "1")]⟩

end FsmExtractor
